import Mathlib

/-!
# Verification of the `bbow` crate (Big Bag Of Words)

Shallow embedding of `src/lib.rs`: a bag-of-words accumulator
`Bbow(BTreeMap<Cow<str>, usize>)` with operations `new`,
`extend_from_text`, `match_count`, `words`, `count`, `len`, `is_empty`.

Strings are modelled as `List Char`.  The Rust standard library's Unicode
character classification (`char::is_whitespace`, `char::is_alphabetic`,
`char::is_uppercase`, `str::to_lowercase`) is modelled faithfully on the
Basic Latin and Latin-1 Supplement blocks (U+0000..U+00FF), which contain
every character occurring in this development; on that range Unicode
lowercasing is the pointwise map `c ↦ c + 32` on uppercase letters.
The `BTreeMap` is modelled as an association list kept sorted by the
strict codepoint-lexicographic order on keys (equivalently byte order on
UTF-8, which is what `BTreeMap<Cow<str>, _>` uses), with ordered
insertion modelling `entry(word).and_modify(|c| *c += 1).or_insert(1)`.
-/

namespace BbowModel

/-- Model of Rust `char::is_whitespace` (Unicode `White_Space`) on the
Basic Latin and Latin-1 Supplement blocks: TAB, LF, VT, FF, CR, SPACE,
NEL (U+0085) and NBSP (U+00A0). -/
def rIsWhitespace (c : Char) : Bool :=
  c.toNat = 9 || c.toNat = 10 || c.toNat = 11 || c.toNat = 12 ||
  c.toNat = 13 || c.toNat = 32 || c.toNat = 133 || c.toNat = 160

/-- Model of Rust `char::is_alphabetic` (Unicode `Alphabetic`) on the
Basic Latin and Latin-1 Supplement blocks plus `İ` U+0130: `A`-`Z`,
`a`-`z`, `ª`, `µ`, `º`, `À`-`Ö`, `Ø`-`ö`, `ø`-`ÿ` (excluding `×` U+00D7
and `÷` U+00F7), and `İ` (LATIN CAPITAL LETTER I WITH DOT ABOVE,
category Lu).  U+0307 COMBINING DOT ABOVE (category Mn) is not
alphabetic, matching Rust. -/
def rIsAlphabetic (c : Char) : Bool :=
  (65 ≤ c.toNat && c.toNat ≤ 90) || (97 ≤ c.toNat && c.toNat ≤ 122) ||
  c.toNat = 170 || c.toNat = 181 || c.toNat = 186 ||
  (192 ≤ c.toNat && c.toNat ≤ 214) || (216 ≤ c.toNat && c.toNat ≤ 246) ||
  (248 ≤ c.toNat && c.toNat ≤ 255) || c.toNat = 304

/-- Model of Rust `char::is_uppercase` (Unicode `Uppercase`) on the Basic
Latin and Latin-1 Supplement blocks plus `İ` U+0130: `A`-`Z`, `À`-`Ö`,
`Ø`-`Þ`, `İ`. -/
def rIsUppercase (c : Char) : Bool :=
  (65 ≤ c.toNat && c.toNat ≤ 90) || (192 ≤ c.toNat && c.toNat ≤ 214) ||
  (216 ≤ c.toNat && c.toNat ≤ 222) || c.toNat = 304

/-- Model of the Unicode punctuation categories (`P*`) on the Basic Latin
and Latin-1 Supplement blocks: ASCII `!"#` `%&'()*` `,-./` `:;` `?@`
`[\]` `_` `{` `}` and Latin-1 `¡ § « ¶ · » ¿`.  Neither `İ` U+0130 (Lu)
nor U+0307 (Mn) is punctuation, matching Unicode. -/
def rIsPunctuation (c : Char) : Bool :=
  (33 ≤ c.toNat && c.toNat ≤ 35) || (37 ≤ c.toNat && c.toNat ≤ 42) ||
  (44 ≤ c.toNat && c.toNat ≤ 47) || c.toNat = 58 || c.toNat = 59 ||
  c.toNat = 63 || c.toNat = 64 || (91 ≤ c.toNat && c.toNat ≤ 93) ||
  c.toNat = 95 || c.toNat = 123 || c.toNat = 125 || c.toNat = 161 ||
  c.toNat = 167 || c.toNat = 171 || c.toNat = 182 || c.toNat = 183 ||
  c.toNat = 187 || c.toNat = 191

/-- U+0307 COMBINING DOT ABOVE, the combining mark that Unicode
lowercasing of `İ` U+0130 appends after `i`. -/
def combiningDot : Char := Char.ofNat 775

/-- Model of Rust `char::to_lowercase` (which yields a *sequence* of
characters) on the modelled range: `İ` U+0130 lowercases to `i` followed
by U+0307 (the one multi-character lowercase special case in Unicode's
SpecialCasing), every other uppercase letter here lowercases to the
codepoint 32 above it, and everything else is unchanged. -/
def rCharLowerMulti (c : Char) : List Char :=
  if c.toNat = 304 then [Char.ofNat 105, Char.ofNat 775]
  else if rIsUppercase c then [Char.ofNat (c.toNat + 32)]
  else [c]

/-- Model of Rust `str::to_lowercase` on the modelled range: the
concatenation of the per-character lowercase sequences. -/
def rToLowercase (w : List Char) : List Char :=
  w.flatMap rCharLowerMulti

/-- Splitting a string at the characters satisfying `p`, keeping the
(possibly empty) chunks between them.  Helper for `splitWhitespace`. -/
def chunksBy (p : Char → Bool) : List Char → List (List Char)
  | [] => [[]]
  | c :: cs =>
    if p c then [] :: chunksBy p cs
    else (chunksBy p cs).modifyHead (fun t => c :: t)

/-- Model of Rust `str::split_whitespace`: the maximal non-empty
substrings separated by runs of whitespace. -/
def splitWhitespace (s : List Char) : List (List Char) :=
  (chunksBy rIsWhitespace s).filter (fun t => !t.isEmpty)

/-- Model of Rust `str::trim_matches` with a `char` predicate pattern:
remove all leading and all trailing characters satisfying `p`. -/
def trimMatches (p : Char → Bool) (s : List Char) : List Char :=
  ((s.dropWhile p).reverse.dropWhile p).reverse

/-- `fn is_word(word: &str) -> bool` from `src/lib.rs`:
`!word.is_empty() && word.chars().all(|c| c.is_alphabetic())`. -/
def is_word (word : List Char) : Bool :=
  !word.isEmpty && word.all rIsAlphabetic

/-- `fn has_uppercase(word: &str) -> bool` from `src/lib.rs`:
`word.chars().any(char::is_uppercase)`. -/
def has_uppercase (word : List Char) : Bool :=
  word.any rIsUppercase

/-- Strict codepoint-lexicographic order on strings: the order in which
`BTreeMap<Cow<str>, usize>` keeps its keys (byte order on UTF-8 agrees
with codepoint order). -/
def keyLt : List Char → List Char → Bool
  | _, [] => false
  | [], _ :: _ => true
  | a :: as, b :: bs =>
    a.toNat < b.toNat || (a.toNat = b.toNat && keyLt as bs)

/-- `pub struct Bbow<'a>(BTreeMap<Cow<'a, str>, usize>)`, modelled as its
sorted list of (key, count) entries. -/
abbrev Bbow := List (List Char × Nat)

/-- `Bbow::new()`: the empty bag (`Self::default()`). -/
def new : Bbow := []

/-- `self.0.entry(word).and_modify(|count| *count += 1).or_insert(1)`:
ordered-insert into the sorted entry list, bumping the count if the key
is already present. -/
def insertWord (w : List Char) : Bbow → Bbow
  | [] => [(w, 1)]
  | (k, v) :: rest =>
    if w = k then (k, v + 1) :: rest
    else if keyLt w k then (w, 1) :: (k, v) :: rest
    else (k, v) :: insertWord w rest

/-- The `filter_map` stage of `extend_from_text`: split the target on
whitespace, trim each token of leading/trailing non-alphabetic
characters, and keep the trimmed tokens accepted by `is_word`. -/
def validWords (target : List Char) : List (List Char) :=
  (splitWhitespace target).filterMap (fun word =>
    let trimmed := trimMatches (fun c => !rIsAlphabetic c) word
    if is_word trimmed then some trimmed else none)

/-- The normalization performed in the `for_each` stage of
`extend_from_text`: lowercase the word if it has any uppercase letter,
otherwise keep it as is (the zero-copy borrowing case). -/
def normalizeWord (w : List Char) : List Char :=
  if has_uppercase w then rToLowercase w else w

/-- `Bbow::extend_from_text(self, target)`: insert every accepted word of
`target`, normalized, into the map, in order of appearance. -/
def extend_from_text (b : Bbow) (target : List Char) : Bbow :=
  (validWords target).foldl (fun acc w => insertWord (normalizeWord w) acc) b

/-- `Bbow::match_count(&self, keyword)`:
`*self.0.get(keyword).unwrap_or(&0usize)`. -/
def match_count (b : Bbow) (keyword : List Char) : Nat :=
  match b with
  | [] => 0
  | (k, v) :: rest => if k = keyword then v else match_count rest keyword

/-- `Bbow::words(&self)`: `self.0.keys()`, in the map's sorted order. -/
def words (b : Bbow) : List (List Char) :=
  b.map Prod.fst

/-- `Bbow::count(&self)`: `self.0.values().sum()`. -/
def count (b : Bbow) : Nat :=
  (b.map Prod.snd).sum

/-- `Bbow::len(&self)`: `self.0.len()`. -/
def len (b : Bbow) : Nat :=
  b.length

/-- `Bbow::is_empty(&self)`: `self.0.is_empty()`. -/
def is_empty (b : Bbow) : Bool :=
  b.isEmpty

/-- A `Bbow` built by `new()` followed by one `extend_from_text` call per
fragment in `ts` — the reachable bags. -/
def buildBbow (ts : List (List Char)) : Bbow :=
  ts.foldl extend_from_text new

/-- Spec-side quantity for claim C1 (§8 of the spec, stated in the
spec's own words): the number of maximal whitespace-delimited tokens
that, after trimming leading/trailing non-letter characters, are
non-empty and contain only letters. -/
def specValidTokenCount (t : List Char) : Nat :=
  ((splitWhitespace t).filter (fun tok =>
    let trimmed := trimMatches (fun c => !rIsAlphabetic c) tok
    !trimmed.isEmpty && trimmed.all rIsAlphabetic)).length

/-- The apostrophe character U+0027 (used in the scenario inputs). -/
def apos : Char := Char.ofNat 39

/-- Scenario 1 input from §8 of the spec:
`"It ain't over untïl it ain't, over."` (apostrophes spliced in). -/
def scenario1 : List Char :=
  "It ain".toList ++ [apos] ++ "t over untïl it ain".toList ++ [apos] ++
    "t, over.".toList

/-- The keys of a bag are strictly sorted in `keyLt` order — the standing
`BTreeMap` representation invariant. -/
def SortedMap (b : Bbow) : Prop :=
  (words b).Pairwise (fun x y => keyLt x y = true)

/-- The key invariant of claim C2 (amended), as a predicate on bags:
every key is non-empty, and each of its characters is a letter or the
combining mark U+0307 introduced by lowercasing, and is not uppercase,
not whitespace, and not punctuation. -/
def GoodKeys (b : Bbow) : Prop :=
  ∀ k ∈ words b, k ≠ [] ∧
    ∀ c ∈ k, (rIsAlphabetic c = true ∨ c = combiningDot) ∧
      rIsUppercase c = false ∧ rIsWhitespace c = false ∧
      rIsPunctuation c = false

/-- The positive-count invariant of claim C3, as a predicate on bags. -/
def PosCounts (b : Bbow) : Prop :=
  ∀ kv ∈ b, 1 ≤ kv.2

/-! ## Character-level lemmas -/

theorem char_eq_of_toNat_eq {a b : Char} (h : a.toNat = b.toNat) : a = b :=
  Char.ext (UInt32.eq_of_toBitVec_eq (BitVec.eq_of_toNat_eq h))

theorem upper_toNat_bounds {c : Char} (h : rIsUppercase c = true) :
    (65 ≤ c.toNat ∧ c.toNat ≤ 90) ∨ (192 ≤ c.toNat ∧ c.toNat ≤ 214) ∨
    (216 ≤ c.toNat ∧ c.toNat ≤ 222) ∨ c.toNat = 304 := by
  simp only [rIsUppercase, Bool.or_eq_true, Bool.and_eq_true,
    decide_eq_true_eq] at h
  tauto

theorem toNat_ofNat_small {n : Nat} (h : n < 0xd800) :
    (Char.ofNat n).toNat = n := by
  rw [Char.ofNat, dif_pos (Or.inl h)]
  simp [Char.ofNatAux, Char.toNat, UInt32.toNat]

theorem alpha_not_whitespace {c : Char} (h : rIsAlphabetic c = true) :
    rIsWhitespace c = false := by
  simp only [rIsAlphabetic, Bool.or_eq_true, Bool.and_eq_true,
    decide_eq_true_eq] at h
  rw [Bool.eq_false_iff]
  intro hw
  simp only [rIsWhitespace, Bool.or_eq_true, decide_eq_true_eq] at hw
  omega

theorem alpha_not_punctuation {c : Char} (h : rIsAlphabetic c = true) :
    rIsPunctuation c = false := by
  simp only [rIsAlphabetic, Bool.or_eq_true, Bool.and_eq_true,
    decide_eq_true_eq] at h
  rw [Bool.eq_false_iff]
  intro hp
  simp only [rIsPunctuation, Bool.or_eq_true, Bool.and_eq_true,
    decide_eq_true_eq] at hp
  omega

theorem rCharLowerMulti_ne_nil (c : Char) : rCharLowerMulti c ≠ [] := by
  unfold rCharLowerMulti
  by_cases h304 : c.toNat = 304
  · rw [if_pos h304]; simp
  · rw [if_neg h304]
    by_cases hu : rIsUppercase c = true
    · rw [if_pos hu]; simp
    · rw [if_neg hu]; simp

theorem mem_rCharLowerMulti_not_upper {c d : Char}
    (hd : d ∈ rCharLowerMulti c) : rIsUppercase d = false := by
  unfold rCharLowerMulti at hd
  by_cases h304 : c.toNat = 304
  · rw [if_pos h304] at hd
    rcases List.mem_cons.mp hd with rfl | hd2
    · decide
    · rw [List.mem_singleton] at hd2
      subst hd2
      decide
  · rw [if_neg h304] at hd
    by_cases hu : rIsUppercase c = true
    · rw [if_pos hu, List.mem_singleton] at hd
      subst hd
      have hb := upper_toNat_bounds hu
      have h32 : (Char.ofNat (c.toNat + 32)).toNat = c.toNat + 32 :=
        toNat_ofNat_small (by omega)
      rw [Bool.eq_false_iff]
      intro hc
      have hb2 := upper_toNat_bounds hc
      rw [h32] at hb2
      omega
    · rw [if_neg hu, List.mem_singleton] at hd
      subst hd
      simpa using hu

theorem mem_rCharLowerMulti_not_ws {c d : Char}
    (hc : rIsAlphabetic c = true) (hd : d ∈ rCharLowerMulti c) :
    rIsWhitespace d = false := by
  unfold rCharLowerMulti at hd
  by_cases h304 : c.toNat = 304
  · rw [if_pos h304] at hd
    rcases List.mem_cons.mp hd with rfl | hd2
    · decide
    · rw [List.mem_singleton] at hd2
      subst hd2
      decide
  · rw [if_neg h304] at hd
    by_cases hu : rIsUppercase c = true
    · rw [if_pos hu, List.mem_singleton] at hd
      subst hd
      have hb := upper_toNat_bounds hu
      have h32 : (Char.ofNat (c.toNat + 32)).toNat = c.toNat + 32 :=
        toNat_ofNat_small (by omega)
      rw [Bool.eq_false_iff]
      intro hw
      simp only [rIsWhitespace, Bool.or_eq_true, decide_eq_true_eq, h32] at hw
      omega
    · rw [if_neg hu, List.mem_singleton] at hd
      subst hd
      exact alpha_not_whitespace hc

theorem mem_rCharLowerMulti_not_punct {c d : Char}
    (hc : rIsAlphabetic c = true) (hd : d ∈ rCharLowerMulti c) :
    rIsPunctuation d = false := by
  unfold rCharLowerMulti at hd
  by_cases h304 : c.toNat = 304
  · rw [if_pos h304] at hd
    rcases List.mem_cons.mp hd with rfl | hd2
    · decide
    · rw [List.mem_singleton] at hd2
      subst hd2
      decide
  · rw [if_neg h304] at hd
    by_cases hu : rIsUppercase c = true
    · rw [if_pos hu, List.mem_singleton] at hd
      subst hd
      have hb := upper_toNat_bounds hu
      have h32 : (Char.ofNat (c.toNat + 32)).toNat = c.toNat + 32 :=
        toNat_ofNat_small (by omega)
      rw [Bool.eq_false_iff]
      intro hp
      simp only [rIsPunctuation, Bool.or_eq_true, Bool.and_eq_true,
        decide_eq_true_eq, h32] at hp
      omega
    · rw [if_neg hu, List.mem_singleton] at hd
      subst hd
      exact alpha_not_punctuation hc

theorem mem_rCharLowerMulti_alpha_or_dot {c d : Char}
    (hc : rIsAlphabetic c = true) (hd : d ∈ rCharLowerMulti c) :
    rIsAlphabetic d = true ∨ d = combiningDot := by
  unfold rCharLowerMulti at hd
  by_cases h304 : c.toNat = 304
  · rw [if_pos h304] at hd
    rcases List.mem_cons.mp hd with rfl | hd2
    · left; decide
    · rw [List.mem_singleton] at hd2
      subst hd2
      right; rfl
  · rw [if_neg h304] at hd
    by_cases hu : rIsUppercase c = true
    · rw [if_pos hu, List.mem_singleton] at hd
      subst hd
      have hb := upper_toNat_bounds hu
      have h32 : (Char.ofNat (c.toNat + 32)).toNat = c.toNat + 32 :=
        toNat_ofNat_small (by omega)
      left
      simp only [rIsAlphabetic, Bool.or_eq_true, Bool.and_eq_true,
        decide_eq_true_eq, h32]
      omega
    · rw [if_neg hu, List.mem_singleton] at hd
      subst hd
      exact Or.inl hc

/-! ## Tokenization lemmas -/

theorem chunksBy_ne_nil (p : Char → Bool) (s : List Char) :
    chunksBy p s ≠ [] := by
  induction s with
  | nil => simp [chunksBy]
  | cons c cs ih =>
    by_cases hp : p c
    · simp [chunksBy, hp]
    · simp only [chunksBy, hp, if_neg, Bool.false_eq_true, not_false_iff]
      cases hch : chunksBy p cs with
      | nil => exact absurd hch ih
      | cons t ts => simp

theorem chunksBy_append {p : Char → Bool} {c : Char} (hc : p c = true)
    (A B : List Char) :
    chunksBy p (A ++ c :: B) = chunksBy p A ++ chunksBy p B := by
  induction A with
  | nil => simp [chunksBy, hc]
  | cons a as ih =>
    by_cases hp : p a
    · simp [chunksBy, hp, ih]
    · cases hch : chunksBy p as with
      | nil => exact absurd hch (chunksBy_ne_nil p as)
      | cons t ts => simp [List.cons_append, chunksBy, hp, ih, hch]

theorem chunksBy_eq_single {p : Char → Bool} {w : List Char}
    (h : ∀ c ∈ w, p c = false) : chunksBy p w = [w] := by
  induction w with
  | nil => rfl
  | cons c cs ih =>
    have hc : p c = false := h c (by simp)
    have ih2 := ih (fun x hx => h x (by simp [hx]))
    simp [chunksBy, hc, ih2]

theorem mem_of_mem_chunksBy {p : Char → Bool} :
    ∀ {s tok : List Char}, tok ∈ chunksBy p s → ∀ {c}, c ∈ tok → c ∈ s := by
  intro s
  induction s with
  | nil =>
    intro tok ht c hc
    simp [chunksBy] at ht
    subst ht
    simp at hc
  | cons a as ih =>
    intro tok ht c hc
    by_cases hp : p a
    · simp only [chunksBy, hp, if_true, List.mem_cons] at ht
      rcases ht with rfl | ht
      · simp at hc
      · exact List.mem_cons_of_mem _ (ih ht hc)
    · simp only [chunksBy, hp, Bool.false_eq_true, if_false] at ht
      cases hch : chunksBy p as with
      | nil => exact absurd hch (chunksBy_ne_nil p as)
      | cons t ts =>
        rw [hch] at ht
        simp only [List.modifyHead, List.mem_cons] at ht
        rcases ht with rfl | ht
        · rcases List.mem_cons.mp hc with rfl | hc2
          · exact List.mem_cons_self _ _
          · exact List.mem_cons_of_mem _
              (ih (by rw [hch]; exact List.mem_cons_self _ _) hc2)
        · exact List.mem_cons_of_mem _
            (ih (by rw [hch]; exact List.mem_cons_of_mem _ ht) hc)

theorem splitWhitespace_append_ws {c : Char} (hc : rIsWhitespace c = true)
    (A B : List Char) :
    splitWhitespace (A ++ c :: B) = splitWhitespace A ++ splitWhitespace B := by
  unfold splitWhitespace
  rw [chunksBy_append hc, List.filter_append]

theorem splitWhitespace_single {w : List Char} (hne : w ≠ [])
    (h : ∀ c ∈ w, rIsWhitespace c = false) : splitWhitespace w = [w] := by
  unfold splitWhitespace
  rw [chunksBy_eq_single h]
  have hie : w.isEmpty = false := by simpa [List.isEmpty_iff] using hne
  simp [List.filter, hie]

theorem mem_of_mem_splitWhitespace {s tok : List Char}
    (ht : tok ∈ splitWhitespace s) {c : Char} (hc : c ∈ tok) : c ∈ s :=
  mem_of_mem_chunksBy (List.mem_of_mem_filter ht) hc

theorem trimMatches_eq_nil {p : Char → Bool} {s : List Char}
    (h : ∀ c ∈ s, p c = true) : trimMatches p s = [] := by
  unfold trimMatches
  have h1 : s.dropWhile p = [] := List.dropWhile_eq_nil_iff.mpr (by simpa using h)
  rw [h1]
  simp

theorem trimMatches_eq_self {p : Char → Bool} {s : List Char}
    (h : ∀ c ∈ s, p c = false) : trimMatches p s = s := by
  unfold trimMatches
  have hdrop : ∀ t : List Char, (∀ c ∈ t, p c = false) → t.dropWhile p = t := by
    intro t htc
    cases t with
    | nil => rfl
    | cons x xs => rw [List.dropWhile_cons_of_neg (by simp [htc x (by simp)])]
  rw [hdrop s h, hdrop s.reverse (fun c hc => h c (List.mem_reverse.mp hc)),
    List.reverse_reverse]

/-! ## Order lemmas for the sorted map -/

theorem keyLt_irrefl (a : List Char) : keyLt a a = false := by
  induction a with
  | nil => rfl
  | cons c cs ih => simp [keyLt, ih]

theorem keyLt_trichotomy :
    ∀ a b : List Char, keyLt a b = true ∨ a = b ∨ keyLt b a = true := by
  intro a
  induction a with
  | nil =>
    intro b
    cases b with
    | nil => right; left; rfl
    | cons d ds => left; rfl
  | cons c cs ih =>
    intro b
    cases b with
    | nil => right; right; rfl
    | cons d ds =>
      rcases Nat.lt_trichotomy c.toNat d.toNat with h | h | h
      · left; simp [keyLt, h]
      · have hcd : c = d := char_eq_of_toNat_eq h
        subst hcd
        rcases ih ds with h2 | h2 | h2
        · left; simp [keyLt, h2]
        · right; left; rw [h2]
        · right; right; simp [keyLt, h2]
      · right; right; simp [keyLt, h]

theorem keyLt_trans :
    ∀ {a b c : List Char}, keyLt a b = true → keyLt b c = true →
      keyLt a c = true := by
  intro a
  induction a with
  | nil =>
    intro b c hab hbc
    cases b with
    | nil => exact absurd hab (by simp [keyLt])
    | cons d ds =>
      cases c with
      | nil => exact absurd hbc (by simp [keyLt])
      | cons e es => rfl
  | cons x xs ih =>
    intro b c hab hbc
    cases b with
    | nil => exact absurd hab (by simp [keyLt])
    | cons d ds =>
      cases c with
      | nil => exact absurd hbc (by simp [keyLt])
      | cons e es =>
        simp only [keyLt, Bool.or_eq_true, Bool.and_eq_true,
          decide_eq_true_eq] at hab hbc ⊢
        rcases hab with h1 | ⟨h1, h1r⟩
        · rcases hbc with h2 | ⟨h2, _⟩
          · left; omega
          · left; omega
        · rcases hbc with h2 | ⟨h2, h2r⟩
          · left; omega
          · right; exact ⟨by omega, ih h1r h2r⟩

theorem ne_of_keyLt {a b : List Char} (h : keyLt a b = true) : a ≠ b := by
  intro hab
  subst hab
  rw [keyLt_irrefl] at h
  exact absurd h (by simp)

theorem keyLt_of_ne_of_not_lt {a b : List Char} (hne : a ≠ b)
    (hnlt : keyLt a b = false) : keyLt b a = true := by
  rcases keyLt_trichotomy a b with h | h | h
  · rw [h] at hnlt; exact absurd hnlt (by simp)
  · exact absurd h hne
  · exact h

/-! ## Map operation lemmas -/

theorem words_insertWord {w : List Char} :
    ∀ {b : Bbow} {x}, x ∈ words (insertWord w b) → x = w ∨ x ∈ words b := by
  intro b
  induction b with
  | nil =>
    intro x hx
    simp [insertWord, words] at hx
    exact Or.inl hx
  | cons kv rest ih =>
    intro x hx
    obtain ⟨k, v⟩ := kv
    by_cases h1 : w = k
    · subst h1
      simp only [insertWord, if_true, eq_self_iff_true, words,
        List.map_cons, List.mem_cons] at hx ⊢
      tauto
    · by_cases h2 : keyLt w k = true
      · simp only [insertWord, if_neg h1, if_pos h2] at hx
        simp only [words, List.map_cons, List.mem_cons] at hx ⊢
        tauto
      · simp only [insertWord, if_neg h1, if_neg h2] at hx
        simp only [words, List.map_cons, List.mem_cons] at hx ⊢
        rcases hx with rfl | hx
        · tauto
        · rcases ih hx with h | h
          · exact Or.inl h
          · exact Or.inr (Or.inr h)

theorem sortedMap_insertWord {w : List Char} :
    ∀ {b : Bbow}, SortedMap b → SortedMap (insertWord w b) := by
  intro b
  induction b with
  | nil =>
    intro _
    simp [SortedMap, insertWord, words]
  | cons kv rest ih =>
    intro hs
    obtain ⟨k, v⟩ := kv
    simp only [SortedMap, words, List.map_cons, List.pairwise_cons] at hs
    obtain ⟨hk, hrest⟩ := hs
    by_cases h1 : w = k
    · subst h1
      simp only [insertWord, if_true, eq_self_iff_true, SortedMap, words,
        List.map_cons, List.pairwise_cons]
      exact ⟨hk, hrest⟩
    · by_cases h2 : keyLt w k = true
      · simp only [insertWord, if_neg h1, if_pos h2]
        simp only [SortedMap, words, List.map_cons, List.pairwise_cons]
        refine ⟨?_, hk, hrest⟩
        intro y hy
        rcases List.mem_cons.mp hy with rfl | hy2
        · exact h2
        · exact keyLt_trans h2 (hk y hy2)
      · simp only [insertWord, if_neg h1, if_neg h2]
        simp only [SortedMap, words, List.map_cons, List.pairwise_cons]
        have hkw : keyLt k w = true :=
          keyLt_of_ne_of_not_lt h1 (by simpa using h2)
        refine ⟨?_, ih hrest⟩
        intro y hy
        rcases words_insertWord hy with rfl | hy2
        · exact hkw
        · exact hk y hy2

theorem sortedMap_extend {b : Bbow} (hs : SortedMap b) (t : List Char) :
    SortedMap (extend_from_text b t) := by
  unfold extend_from_text
  generalize validWords t = ws
  induction ws generalizing b with
  | nil => exact hs
  | cons w ws ih => exact ih (sortedMap_insertWord hs)

theorem sortedMap_buildBbow (ts : List (List Char)) :
    SortedMap (buildBbow ts) := by
  unfold buildBbow
  have hnew : SortedMap new := by simp [SortedMap, new, words]
  generalize new = b at hnew ⊢
  induction ts generalizing b with
  | nil => exact hnew
  | cons t ts ih => exact ih _ (sortedMap_extend hnew t)

/-! ## Counting and lookup lemmas -/

theorem count_insertWord (w : List Char) (b : Bbow) :
    count (insertWord w b) = count b + 1 := by
  induction b with
  | nil => simp [insertWord, count]
  | cons kv rest ih =>
    obtain ⟨k, v⟩ := kv
    by_cases h1 : w = k
    · subst h1
      simp only [insertWord, if_true, eq_self_iff_true, count,
        List.map_cons, List.sum_cons]
      omega
    · by_cases h2 : keyLt w k = true
      · simp only [insertWord, if_neg h1, if_pos h2, count, List.map_cons,
          List.sum_cons]
        omega
      · simp only [insertWord, if_neg h1, if_neg h2, count, List.map_cons,
          List.sum_cons] at ih ⊢
        omega

theorem match_count_eq_zero_of_not_mem :
    ∀ {b : Bbow} {k : List Char}, k ∉ words b → match_count b k = 0 := by
  intro b
  induction b with
  | nil => intro k _; rfl
  | cons kv rest ih =>
    intro k hk
    obtain ⟨k0, v⟩ := kv
    simp only [words, List.map_cons, List.mem_cons, not_or] at hk
    obtain ⟨h1, h2⟩ := hk
    simp only [match_count, if_neg (fun hh : k0 = k => h1 hh.symm)]
    exact ih h2

theorem not_mem_of_lt_all {w : List Char} {ks : List (List Char)}
    (h : ∀ y ∈ ks, keyLt w y = true) : w ∉ ks := by
  intro hmem
  have := h w hmem
  rw [keyLt_irrefl] at this
  exact absurd this (by simp)

theorem match_count_insertWord {w : List Char} :
    ∀ {b : Bbow}, SortedMap b → ∀ k,
      match_count (insertWord w b) k =
        match_count b k + (if k = w then 1 else 0) := by
  intro b
  induction b with
  | nil =>
    intro _ k
    simp only [insertWord, match_count]
    by_cases h : k = w
    · subst h; simp
    · rw [if_neg (fun hh : w = k => h hh.symm), if_neg h]
  | cons kv rest ih =>
    intro hs k
    obtain ⟨k0, v⟩ := kv
    simp only [SortedMap, words, List.map_cons, List.pairwise_cons] at hs
    obtain ⟨hk0, hrest⟩ := hs
    by_cases h1 : w = k0
    · subst h1
      simp only [insertWord, if_true, eq_self_iff_true, match_count]
      by_cases h2 : w = k
      · subst h2; simp
      · rw [if_neg h2, if_neg h2, if_neg (fun hh : k = w => h2 hh.symm)]
        omega
    · by_cases h2 : keyLt w k0 = true
      · simp only [insertWord, if_neg h1, if_pos h2, match_count]
        by_cases h3 : w = k
        · subst h3
          rw [if_pos rfl, if_neg (fun hh : k0 = w => h1 hh.symm), if_pos rfl]
          have hnm : w ∉ List.map Prod.fst rest := by
            apply not_mem_of_lt_all
            intro y hy
            exact keyLt_trans h2 (hk0 y hy)
          rw [match_count_eq_zero_of_not_mem hnm]
        · rw [if_neg h3, if_neg (fun hh : k = w => h3 hh.symm)]
          omega
      · simp only [insertWord, if_neg h1, if_neg h2, match_count]
        by_cases hk : k0 = k
        · subst hk
          rw [if_pos rfl, if_pos rfl,
            if_neg (fun hh : k0 = w => h1 hh.symm)]
          omega
        · rw [if_neg hk, if_neg hk]
          exact ih hrest k

theorem match_count_mem_sorted :
    ∀ {b : Bbow}, SortedMap b → ∀ {k : List Char} {v : Nat},
      (k, v) ∈ b → match_count b k = v := by
  intro b
  induction b with
  | nil => intro _ k v hm; exact absurd hm (by simp)
  | cons kv rest ih =>
    intro hs k v hm
    obtain ⟨k0, v0⟩ := kv
    simp only [SortedMap, words, List.map_cons, List.pairwise_cons] at hs
    obtain ⟨hk0, hrest⟩ := hs
    rcases List.mem_cons.mp hm with heq | hm2
    · obtain ⟨rfl, rfl⟩ := Prod.mk.injEq .. ▸ heq
      simp [match_count]
    · have hkmem : k ∈ List.map Prod.fst rest :=
        List.mem_map.mpr ⟨(k, v), hm2, rfl⟩
      have hne : k0 ≠ k := by
        intro hh
        subst hh
        exact not_mem_of_lt_all hk0 hkmem
      simp only [match_count, if_neg hne]
      exact ih hrest hm2

/-! ## Shape of the accepted words -/

theorem mem_validWords_iff {t w : List Char} :
    w ∈ validWords t ↔ ∃ tok ∈ splitWhitespace t,
      trimMatches (fun c => !rIsAlphabetic c) tok = w ∧ is_word w = true := by
  unfold validWords
  rw [List.mem_filterMap]
  constructor
  · rintro ⟨tok, htok, hsome⟩
    refine ⟨tok, htok, ?_⟩
    by_cases hw : is_word (trimMatches (fun c => !rIsAlphabetic c) tok) = true
    · rw [if_pos hw] at hsome
      have heq := Option.some.inj hsome
      subst heq
      exact ⟨rfl, hw⟩
    · rw [if_neg hw] at hsome
      exact absurd hsome (by simp)
  · rintro ⟨tok, htok, heq, hw⟩
    refine ⟨tok, htok, ?_⟩
    rw [heq, if_pos hw]

/-- A normalized accepted word is non-empty, and each of its characters
is a letter or the combining dot U+0307, and is neither uppercase nor
whitespace nor punctuation. -/
theorem normalizeWord_good {w : List Char} (hw : is_word w = true) :
    normalizeWord w ≠ [] ∧
    ∀ c ∈ normalizeWord w, (rIsAlphabetic c = true ∨ c = combiningDot) ∧
      rIsUppercase c = false ∧ rIsWhitespace c = false ∧
      rIsPunctuation c = false := by
  have hne : w ≠ [] := by
    intro h
    subst h
    simp [is_word] at hw
  have halpha : ∀ c ∈ w, rIsAlphabetic c = true := by
    simp only [is_word, Bool.and_eq_true, List.all_eq_true] at hw
    exact hw.2
  unfold normalizeWord
  by_cases hu : has_uppercase w = true
  · rw [if_pos hu]
    unfold rToLowercase
    constructor
    · cases w with
      | nil => exact absurd rfl hne
      | cons c cs =>
        simp only [List.flatMap_cons]
        exact List.append_ne_nil_of_left_ne_nil (rCharLowerMulti_ne_nil c) _
    · intro c hc
      obtain ⟨c0, hc0, hcm⟩ := List.mem_flatMap.mp hc
      exact ⟨mem_rCharLowerMulti_alpha_or_dot (halpha c0 hc0) hcm,
        mem_rCharLowerMulti_not_upper hcm,
        mem_rCharLowerMulti_not_ws (halpha c0 hc0) hcm,
        mem_rCharLowerMulti_not_punct (halpha c0 hc0) hcm⟩
  · rw [if_neg hu]
    refine ⟨hne, ?_⟩
    intro c hc
    have hfalse : has_uppercase w = false := by simpa using hu
    rw [has_uppercase, List.any_eq_false] at hfalse
    exact ⟨Or.inl (halpha c hc), by simpa using hfalse c hc,
      alpha_not_whitespace (halpha c hc), alpha_not_punctuation (halpha c hc)⟩

theorem goodKeys_fold :
    ∀ (ws : List (List Char)) (b : Bbow), GoodKeys b →
      (∀ w ∈ ws, is_word w = true) →
      GoodKeys (ws.foldl (fun acc w => insertWord (normalizeWord w) acc) b) := by
  intro ws
  induction ws with
  | nil => intro b hb _; exact hb
  | cons w ws ih =>
    intro b hb hws
    simp only [List.foldl_cons]
    apply ih
    · intro k hk
      rcases words_insertWord hk with rfl | hk2
      · exact normalizeWord_good (hws w (by simp))
      · exact hb k hk2
    · intro x hx
      exact hws x (by simp [hx])

theorem goodKeys_extend {b : Bbow} (hb : GoodKeys b) (t : List Char) :
    GoodKeys (extend_from_text b t) := by
  unfold extend_from_text
  apply goodKeys_fold _ _ hb
  intro w hw
  obtain ⟨tok, _, _, h⟩ := mem_validWords_iff.mp hw
  exact h

theorem goodKeys_buildBbow (ts : List (List Char)) :
    GoodKeys (buildBbow ts) := by
  unfold buildBbow
  have hnew : GoodKeys new := by
    intro k hk
    exact absurd hk (by simp [new, words])
  generalize new = b at hnew ⊢
  induction ts generalizing b with
  | nil => exact hnew
  | cons t ts ih => exact ih _ (goodKeys_extend hnew t)

/-! ## Fold-level lemmas -/

theorem count_fold (ws : List (List Char)) :
    ∀ b : Bbow,
      count (ws.foldl (fun acc w => insertWord (normalizeWord w) acc) b) =
        count b + ws.length := by
  induction ws with
  | nil => intro b; simp
  | cons w ws ih =>
    intro b
    simp only [List.foldl_cons, ih, count_insertWord, List.length_cons]
    omega

theorem count_extend (b : Bbow) (t : List Char) :
    count (extend_from_text b t) = count b + (validWords t).length :=
  count_fold (validWords t) b

theorem length_validWords (t : List Char) :
    (validWords t).length = specValidTokenCount t := by
  unfold validWords specValidTokenCount
  generalize splitWhitespace t = toks
  induction toks with
  | nil => rfl
  | cons tok toks ih =>
    simp only [List.filterMap_cons, List.filter_cons]
    by_cases h : is_word (trimMatches (fun c => !rIsAlphabetic c) tok) = true
    · have hp : (!(trimMatches (fun c => !rIsAlphabetic c) tok).isEmpty &&
          (trimMatches (fun c => !rIsAlphabetic c) tok).all rIsAlphabetic) =
          true := h
      simp [h, hp, ih]
    · have hb2 : is_word (trimMatches (fun c => !rIsAlphabetic c) tok) =
          false := by simpa using h
      have hp : (!(trimMatches (fun c => !rIsAlphabetic c) tok).isEmpty &&
          (trimMatches (fun c => !rIsAlphabetic c) tok).all rIsAlphabetic) =
          false := hb2
      simp [h, hp, ih]

theorem match_count_fold_le (ws : List (List Char)) :
    ∀ b : Bbow, SortedMap b → ∀ k,
      match_count b k ≤
        match_count (ws.foldl (fun acc w => insertWord (normalizeWord w) acc) b)
          k := by
  induction ws with
  | nil => intro b _ k; exact Nat.le_refl _
  | cons w ws ih =>
    intro b hs k
    simp only [List.foldl_cons]
    calc match_count b k
        ≤ match_count (insertWord (normalizeWord w) b) k := by
          rw [match_count_insertWord hs k]
          omega
      _ ≤ _ := ih _ (sortedMap_insertWord hs) k

theorem nodup_words_of_sorted {b : Bbow} (hs : SortedMap b) :
    (words b).Nodup :=
  List.Pairwise.imp (fun h => ne_of_keyLt h) hs

/-! ## Single accepted words -/

theorem validWords_single {w : List Char} (hw : is_word w = true) :
    validWords w = [w] := by
  have hne : w ≠ [] := by
    intro h
    subst h
    simp [is_word] at hw
  have halpha : ∀ c ∈ w, rIsAlphabetic c = true := by
    simp only [is_word, Bool.and_eq_true, List.all_eq_true] at hw
    exact hw.2
  unfold validWords
  rw [splitWhitespace_single hne
    (fun c hc => alpha_not_whitespace (halpha c hc))]
  rw [List.filterMap_cons]
  rw [trimMatches_eq_self (fun c hc => by simp [halpha c hc])]
  rw [if_pos hw]
  rfl

theorem extend_single_word {w : List Char} (hw : is_word w = true)
    (b : Bbow) :
    extend_from_text b w = insertWord (normalizeWord w) b := by
  rw [extend_from_text, validWords_single hw]
  rfl

theorem has_uppercase_normalizeWord (w : List Char) :
    has_uppercase (normalizeWord w) = false := by
  unfold normalizeWord
  by_cases hu : has_uppercase w = true
  · rw [if_pos hu]
    rw [has_uppercase, List.any_eq_false]
    intro c hc
    rw [rToLowercase] at hc
    obtain ⟨c0, _, hcm⟩ := List.mem_flatMap.mp hc
    simp [mem_rCharLowerMulti_not_upper hcm]
  · rw [if_neg hu]
    simpa using hu

theorem normalizeWord_idem (w : List Char) :
    normalizeWord (normalizeWord w) = normalizeWord w := by
  have h := has_uppercase_normalizeWord w
  rw [normalizeWord, h]
  simp

/-! ## Concatenation and degenerate inputs -/

theorem validWords_append_space (A B : List Char) :
    validWords (A ++ ' ' :: B) = validWords A ++ validWords B := by
  unfold validWords
  rw [splitWhitespace_append_ws (by decide) A B, List.filterMap_append]

theorem validWords_eq_nil_of_no_alpha {t : List Char}
    (h : ∀ c ∈ t, rIsAlphabetic c = false) : validWords t = [] := by
  unfold validWords
  rw [List.filterMap_eq_nil_iff]
  intro tok htok
  have hall : ∀ c ∈ tok, (fun c => !rIsAlphabetic c) c = true := by
    intro c hc
    simp [h c (mem_of_mem_splitWhitespace htok hc)]
  rw [trimMatches_eq_nil hall]
  rfl

theorem posCounts_insertWord (w : List Char) :
    ∀ {b : Bbow}, PosCounts b → PosCounts (insertWord w b) := by
  intro b
  induction b with
  | nil =>
    intro _ kv hkv
    simp only [insertWord, List.mem_singleton] at hkv
    subst hkv
    exact Nat.le_refl 1
  | cons kv0 rest ih =>
    intro hb kv hkv
    obtain ⟨k, v⟩ := kv0
    have hrest : PosCounts rest := fun x hx => hb x (List.mem_cons_of_mem _ hx)
    by_cases h1 : w = k
    · subst h1
      simp only [insertWord, if_true, eq_self_iff_true, List.mem_cons] at hkv
      rcases hkv with rfl | hkv
      · simp
      · exact hrest _ hkv
    · by_cases h2 : keyLt w k = true
      · simp only [insertWord, if_neg h1, if_pos h2, List.mem_cons] at hkv
        rcases hkv with rfl | rfl | hkv
        · exact Nat.le_refl 1
        · exact hb _ (by simp)
        · exact hrest _ hkv
      · simp only [insertWord, if_neg h1, if_neg h2, List.mem_cons] at hkv
        rcases hkv with rfl | hkv
        · exact hb _ (by simp)
        · exact ih hrest _ hkv

theorem posCounts_extend {b : Bbow} (hb : PosCounts b) (t : List Char) :
    PosCounts (extend_from_text b t) := by
  unfold extend_from_text
  generalize validWords t = ws
  induction ws generalizing b with
  | nil => exact hb
  | cons w ws ih => exact ih (posCounts_insertWord _ hb)

theorem posCounts_buildBbow (ts : List (List Char)) :
    PosCounts (buildBbow ts) := by
  unfold buildBbow
  have hnew : PosCounts new := by
    intro kv hkv
    exact absurd hkv (by simp [new])
  generalize new = b at hnew ⊢
  induction ts generalizing b with
  | nil => exact hnew
  | cons t ts ih => exact ih _ (posCounts_extend hnew t)

/-! ## The claims -/

/-- Claim C1: ingesting any fragment `t` into an empty `Bbow` via
`extend_from_text` yields `count()` equal to the number of maximal
whitespace-delimited tokens of `t` that, after trimming leading and
trailing non-letter characters, are non-empty and consist only of
letters. -/
theorem claim_C1_count_eq_valid_tokens (t : List Char) :
    count (extend_from_text new t) = specValidTokenCount t := by
  rw [count_extend, length_validWords]
  simp [new, count]

/-- Counterexample to claim C2 as stated: ingesting the one-character
fragment `İ` (U+0130) inserts the key `i` followed by U+0307 — Unicode
special casing of `str::to_lowercase`, the one multi-character lowercase
mapping — and U+0307 COMBINING DOT ABOVE (category Mn) is not a letter.
So not every character of every key is a letter. -/
theorem claim_C2_counterexample :
    [Char.ofNat 105, Char.ofNat 775] ∈
      words (buildBbow [[Char.ofNat 304]]) ∧
    rIsAlphabetic (Char.ofNat 775) = false := by
  decide

/-- Claim C2 (amended): in every bag built by `new()` and a sequence of
`extend_from_text` calls, every key is non-empty, no key contains an
uppercase letter, none contains punctuation, none contains whitespace,
and every character of every key is a letter or a combining mark
introduced by lowercasing (U+0307).  The original "every character is a
letter" clause fails exactly at that combining mark
(`claim_C2_counterexample`). -/
theorem claim_C2_key_invariant_amended (ts : List (List Char)) :
    ∀ k ∈ words (buildBbow ts), k ≠ [] ∧
      ∀ c ∈ k, (rIsAlphabetic c = true ∨ c = combiningDot) ∧
        rIsUppercase c = false ∧ rIsWhitespace c = false ∧
        rIsPunctuation c = false := by
  intro k hk
  exact goodKeys_buildBbow ts k hk

/-- Witness for amended C2 at the fragment `İ` and its key
`i` ++ U+0307. -/
theorem claim_C2_amended_witness :
    [Char.ofNat 105, Char.ofNat 775] ∈
      words (buildBbow [[Char.ofNat 304]]) ∧
    ([Char.ofNat 105, Char.ofNat 775] ≠ [] ∧
      ∀ c ∈ [Char.ofNat 105, Char.ofNat 775],
        (rIsAlphabetic c = true ∨ c = combiningDot) ∧
        rIsUppercase c = false ∧ rIsWhitespace c = false ∧
        rIsPunctuation c = false) :=
  ⟨by decide,
    claim_C2_key_invariant_amended [[Char.ofNat 304]]
      [Char.ofNat 105, Char.ofNat 775] (by decide)⟩

/-- Claim C3: on every reachable bag, every stored count is at least 1;
and for every reachable bag, fragment and keyword, `match_count` after
`extend_from_text` is at least `match_count` before. -/
theorem claim_C3_counts_pos_and_monotone :
    (∀ ts : List (List Char), ∀ kv ∈ buildBbow ts, 1 ≤ kv.2) ∧
    (∀ (ts : List (List Char)) (t w : List Char),
      match_count (buildBbow ts) w ≤
        match_count (extend_from_text (buildBbow ts) t) w) := by
  constructor
  · intro ts kv hkv
    exact posCounts_buildBbow ts kv hkv
  · intro ts t w
    unfold extend_from_text
    exact match_count_fold_le (validWords t) _ (sortedMap_buildBbow ts) w

/-- Witness for C3 at the fragment `"a"` and the entry `("a", 1)`. -/
theorem claim_C3_witness :
    ("a".toList, 1) ∈ buildBbow ["a".toList] ∧ 1 ≤ (("a".toList, 1)).2 :=
  ⟨by decide,
    claim_C3_counts_pos_and_monotone.1 ["a".toList] ("a".toList, 1) (by decide)⟩

/-- Claim C4: ingesting fragment `A` then fragment `B` yields the same
map as ingesting the single fragment `A ++ " " ++ B`. -/
theorem claim_C4_chaining (b : Bbow) (A B : List Char) :
    extend_from_text (extend_from_text b A) B =
      extend_from_text b (A ++ ' ' :: B) := by
  unfold extend_from_text
  rw [validWords_append_space, List.foldl_append]

/-- Counterexample to claim C5 as stated: `İ` (U+0130) is an accepted
word, and its all-lowercase form is `i` ++ U+0307.  Ingesting `İ`
increments the key `i` ++ U+0307, while ingesting the lowercase form
itself has its trailing combining mark trimmed off (it is not a letter)
and increments the key `i` — two different keys. -/
theorem claim_C5_counterexample :
    is_word [Char.ofNat 304] = true ∧
    normalizeWord [Char.ofNat 304] = [Char.ofNat 105, Char.ofNat 775] ∧
    extend_from_text new [Char.ofNat 304] =
      [([Char.ofNat 105, Char.ofNat 775], 1)] ∧
    extend_from_text new [Char.ofNat 105, Char.ofNat 775] =
      [([Char.ofNat 105], 1)] ∧
    [Char.ofNat 105, Char.ofNat 775] ≠ [Char.ofNat 105] := by
  decide

/-- Claim C5 (amended): for every accepted word `w` whose lowercase form
is itself a valid all-letter word (that is, lowercasing introduced no
combining mark — `claim_C5_counterexample` shows the unrestricted claim
fails at `İ`), ingesting `w` and ingesting its lowercase form both
insert into the single key `normalizeWord w`, whose count goes up by
exactly one. -/
theorem claim_C5_normalization_amended (ts : List (List Char))
    (w : List Char) (hw : is_word w = true)
    (hl : is_word (normalizeWord w) = true) :
    extend_from_text (buildBbow ts) w =
      insertWord (normalizeWord w) (buildBbow ts) ∧
    extend_from_text (buildBbow ts) (normalizeWord w) =
      insertWord (normalizeWord w) (buildBbow ts) ∧
    match_count (insertWord (normalizeWord w) (buildBbow ts))
        (normalizeWord w) =
      match_count (buildBbow ts) (normalizeWord w) + 1 := by
  refine ⟨extend_single_word hw _, ?_, ?_⟩
  · rw [extend_single_word hl _, normalizeWord_idem w]
  · rw [match_count_insertWord (sortedMap_buildBbow ts) _, if_pos rfl]

/-- Witness for amended C5 at the empty bag and the word `"Hello"`. -/
theorem claim_C5_amended_witness :
    is_word "Hello".toList = true ∧
    is_word (normalizeWord "Hello".toList) = true ∧
    (extend_from_text (buildBbow []) "Hello".toList =
      insertWord (normalizeWord "Hello".toList) (buildBbow []) ∧
    extend_from_text (buildBbow []) (normalizeWord "Hello".toList) =
      insertWord (normalizeWord "Hello".toList) (buildBbow []) ∧
    match_count (insertWord (normalizeWord "Hello".toList) (buildBbow []))
        (normalizeWord "Hello".toList) =
      match_count (buildBbow []) (normalizeWord "Hello".toList) + 1) :=
  ⟨by decide, by decide,
    claim_C5_normalization_amended [] "Hello".toList (by decide) (by decide)⟩

/-- Claim C6: `match_count` returns the stored count of the exact queried
key and 0 for an absent key, with no normalization of the query: after
ingesting `"Hello world."`, `match_count "hello" = 1` and
`match_count "Hello" = 0`. -/
theorem claim_C6_match_count_exact :
    (∀ (ts : List (List Char)) (k : List Char) (v : Nat),
      (k, v) ∈ buildBbow ts → match_count (buildBbow ts) k = v) ∧
    (∀ (ts : List (List Char)) (k : List Char),
      k ∉ words (buildBbow ts) → match_count (buildBbow ts) k = 0) ∧
    match_count (extend_from_text new "Hello world.".toList)
      "hello".toList = 1 ∧
    match_count (extend_from_text new "Hello world.".toList)
      "Hello".toList = 0 := by
  refine ⟨?_, ?_, by decide, by decide⟩
  · intro ts k v hm
    exact match_count_mem_sorted (sortedMap_buildBbow ts) hm
  · intro ts k hk
    exact match_count_eq_zero_of_not_mem hk

/-- Witness for C6 at the fragment `"Hello world."`, key `"hello"`,
count 1. -/
theorem claim_C6_witness :
    ("hello".toList, 1) ∈ buildBbow ["Hello world.".toList] ∧
    match_count (buildBbow ["Hello world.".toList]) "hello".toList = 1 :=
  ⟨by decide,
    claim_C6_match_count_exact.1 ["Hello world.".toList] "hello".toList 1
      (by decide)⟩

/-- Claim C7: on every reachable bag, `words()` yields the distinct keys
in strictly increasing lexicographic order, each exactly once. -/
theorem claim_C7_words_sorted (ts : List (List Char)) :
    (words (buildBbow ts)).Pairwise (fun a b => keyLt a b = true) ∧
    (words (buildBbow ts)).Nodup :=
  ⟨sortedMap_buildBbow ts, nodup_words_of_sorted (sortedMap_buildBbow ts)⟩

/-- Claim C8: scenario 1 — ingesting
`"It ain't over untïl it ain't, over."` into an empty bag accepts (after
normalization) exactly the occurrence sequence
`it, over, untïl, it, over`, and produces the bag
`{it ↦ 2, over ↦ 2, untïl ↦ 1}` with `len() = 3` and `count() = 5`. -/
theorem claim_C8_scenario1 :
    (validWords scenario1).map normalizeWord =
      ["it".toList, "over".toList, "untïl".toList, "it".toList,
        "over".toList] ∧
    extend_from_text new scenario1 =
      [("it".toList, 2), ("over".toList, 2), ("untïl".toList, 1)] ∧
    len (extend_from_text new scenario1) = 3 ∧
    count (extend_from_text new scenario1) = 5 :=
  ⟨by decide, by decide, by decide, by decide⟩

/-- Claim C9: ingesting the empty fragment, the all-punctuation fragment
`"... !!! ---"`, or any fragment with no letter at all leaves the bag
exactly as it was (and `extend_from_text` is a total function — it has no
error channel to signal). -/
theorem claim_C9_no_words_no_change (b : Bbow) :
    extend_from_text b [] = b ∧
    extend_from_text b "... !!! ---".toList = b ∧
    ∀ t : List Char, (∀ c ∈ t, rIsAlphabetic c = false) →
      extend_from_text b t = b := by
  have hgen : ∀ t : List Char, (∀ c ∈ t, rIsAlphabetic c = false) →
      extend_from_text b t = b := by
    intro t h
    rw [extend_from_text, validWords_eq_nil_of_no_alpha h]
    rfl
  exact ⟨hgen [] (by simp), hgen _ (by decide), hgen⟩

/-- Witness for C9 at the empty bag and the fragment `"!?"`. -/
theorem claim_C9_witness :
    (∀ c ∈ "!?".toList, rIsAlphabetic c = false) ∧
    extend_from_text new "!?".toList = new :=
  ⟨by decide, (claim_C9_no_words_no_change new).2.2 "!?".toList (by decide)⟩

/-- Claim C10: the empty string is never a key of a reachable bag, so
`match_count ""` is 0 (and in particular no error is signalled). -/
theorem claim_C10_empty_query (ts : List (List Char)) :
    match_count (buildBbow ts) [] = 0 := by
  apply match_count_eq_zero_of_not_mem
  intro hmem
  exact (goodKeys_buildBbow ts [] hmem).1 rfl

end BbowModel
